import Mathlib

/-
  Verification development for the Orchestrator core of the repository
  (src/projects/orchestrator/orchestrator.h).

  Strings manipulated character-by-character (domain names, vhost#app names)
  are modelled as `List Char`; strings that are only stored or concatenated
  are modelled as `String`.  `std::regex` (ECMAScript subset actually reachable
  from Domain::UpdateRegex) is modelled by a small derivative-based engine
  with an explicit compiler that fails (`none`) exactly where `std::regex`
  construction throws on the reachable patterns; `.` matches any character
  except the line terminators of the char specialization, and a `none`
  compiled regex models the default-constructed `std::regex`, which matches
  nothing.
-/

namespace Orchestrator

/-- `Orchestrator::Result` from orchestrator.h. -/
inductive Result
  | Failed
  | Succeeded
  | Exists
  | NotExists
deriving DecidableEq, Repr

/-- `Orchestrator::ItemState` from orchestrator.h. -/
inductive ItemState
  | Unknown
  | Applied
  | NeedToCheck
  | NotChanged
  | New
  | Changed
  | Delete
deriving DecidableEq, Repr

/-- `OrchestratorModuleType` (declared in data_structure.h, used by orchestrator.h). -/
inductive OrchestratorModuleType
  | Unknown
  | Provider
  | MediaRouter
  | Transcoder
  | Publisher
deriving DecidableEq, Repr

/-! ### A small regular-expression engine (model of the reachable std::regex subset) -/

/-- The line terminators of the char specialization of `std::regex`
(ECMAScript grammar): `.` matches any character except these. -/
def isLineTerm (c : Char) : Bool :=
  c = '\n' || c = '\r'

/-- Regular expressions over `Char`: empty language, empty string, a single
character, any single non-line-terminator character (ECMAScript `.`),
concatenation, alternation, Kleene star. -/
inductive RE
  | fail
  | eps
  | ch (c : Char)
  | any
  | seq (r1 r2 : RE)
  | alt (r1 r2 : RE)
  | star (r : RE)
deriving DecidableEq, Repr

/-- Does the regex accept the empty string? -/
def nullable : RE → Bool
  | .fail => false
  | .eps => true
  | .ch _ => false
  | .any => false
  | .seq r1 r2 => nullable r1 && nullable r2
  | .alt r1 r2 => nullable r1 || nullable r2
  | .star _ => true

/-- Brzozowski derivative of a regex with respect to a character. -/
def deriv (r : RE) (c : Char) : RE :=
  match r with
  | .fail => .fail
  | .eps => .fail
  | .ch d => if d = c then .eps else .fail
  | .any => if isLineTerm c then .fail else .eps
  | .seq r1 r2 =>
    if nullable r1 then .alt (.seq (deriv r1 c) r2) (deriv r2 c)
    else .seq (deriv r1 c) r2
  | .alt r1 r2 => .alt (deriv r1 c) (deriv r2 c)
  | .star r1 => .seq (deriv r1 c) (.star r1)

/-- Full-string regex matching by repeated derivatives (models `std::regex_match`). -/
def reMatchList (r : RE) : List Char → Bool
  | [] => nullable r
  | c :: cs => reMatchList (deriv r c) cs

/-- Declarative semantics of `RE`. -/
inductive RMatch : RE → List Char → Prop
  | eps : RMatch .eps []
  | ch (c : Char) : RMatch (.ch c) [c]
  | any (c : Char) (h : isLineTerm c = false) : RMatch .any [c]
  | seq {r1 r2 : RE} {s1 s2 : List Char} :
      RMatch r1 s1 → RMatch r2 s2 → RMatch (.seq r1 r2) (s1 ++ s2)
  | altL {r1 r2 : RE} {s : List Char} : RMatch r1 s → RMatch (.alt r1 r2) s
  | altR {r1 r2 : RE} {s : List Char} : RMatch r2 s → RMatch (.alt r1 r2) s
  | starNil {r : RE} : RMatch (.star r) []
  | starCons {r : RE} {s1 s2 : List Char} :
      RMatch r s1 → RMatch (.star r) s2 → RMatch (.star r) (s1 ++ s2)

/-! ### The pattern pipeline of `Domain::UpdateRegex` -/

/-- The character class `[[\\./+{}$^|]` used by `Domain::UpdateRegex` to decide
which characters get a backslash escape. -/
def isSpecialChar (c : Char) : Bool :=
  c = '[' || c = '\\' || c = '.' || c = '/' || c = '+' ||
  c = '{' || c = '}' || c = '$' || c = '^' || c = '|'

/-- `std::regex_replace(name, special_characters, "\$&")`: prepend a backslash
to every character of the class above. -/
def escapeSpecial : List Char → List Char
  | [] => []
  | c :: cs =>
    if isSpecialChar c then '\\' :: c :: escapeSpecial cs
    else c :: escapeSpecial cs

/-- `ov::String::Replace(from, to)` for a single-character needle: every
occurrence of `c` is replaced by `rep`, scanning left to right without
rescanning the replacement. -/
def replaceChar (c : Char) (rep : List Char) : List Char → List Char
  | [] => []
  | d :: ds => if d = c then rep ++ replaceChar c rep ds else d :: replaceChar c rep ds

/-- The body of the pattern built by `Domain::UpdateRegex`: escape the special
characters, then replace `*` by `.*`, then replace `?` by `.?`. -/
def updateRegexBody (name : List Char) : List Char :=
  replaceChar '?' ['.', '?'] (replaceChar '*' ['.', '*'] (escapeSpecial name))

/-- The full pattern handed to `std::regex`: `^` + body + `$`
(`escaped.Prepend("^"); escaped.Append("$")`). -/
def updateRegexPattern (name : List Char) : List Char :=
  '^' :: (updateRegexBody name ++ ['$'])

/-- Attach a postfix quantifier (`*` or `?`) to a just-parsed atom, if present. -/
def applyQuant (atom : RE) (rest : List Char) : RE × List Char :=
  match rest with
  | [] => (atom, [])
  | c :: rest2 =>
    if c = '*' then (RE.star atom, rest2)
    else if c = '?' then (RE.alt RE.eps atom, rest2)
    else (atom, c :: rest2)

/-- Recursive-descent compiler for the ECMAScript subset reachable from
`Domain::UpdateRegex` patterns: backslash escapes, `.`, groups, postfix
`*`/`?`, and literal characters.  Unreachable or malformed constructs
(`std::regex` would throw) yield `none` through the caller. -/
def parseReAux : Nat → List Char → RE → Option (RE × List Char)
  | 0, _, _ => none
  | _ + 1, [], acc => some (acc, [])
  | fuel + 1, c :: rest, acc =>
    if c = ')' then some (acc, c :: rest)
    else if c = '\\' then
      match rest with
      | [] => none
      | d :: rest2 =>
        let q := applyQuant (RE.ch d) rest2
        parseReAux fuel q.2 (RE.seq acc q.1)
    else if c = '.' then
      let q := applyQuant RE.any rest
      parseReAux fuel q.2 (RE.seq acc q.1)
    else if c = '(' then
      match parseReAux fuel rest RE.eps with
      | some (g, rest2) =>
        match rest2 with
        | ')' :: rest3 =>
          let q := applyQuant g rest3
          parseReAux fuel q.2 (RE.seq acc q.1)
        | _ => none
      | none => none
    else if c = '*' then none
    else if c = '?' then none
    else if c = '^' then none
    else if c = '$' then none
    else if c = '[' then none
    else
      let q := applyQuant (RE.ch c) rest
      parseReAux fuel q.2 (RE.seq acc q.1)

/-- Compile a pattern body (between the anchors). -/
def compileBody (body : List Char) : Option RE :=
  match parseReAux (body.length + 1) body RE.eps with
  | some (r, []) => some r
  | _ => none

/-- Compile a full `^…$` pattern as produced by `Domain::UpdateRegex`
(`std::regex` construction; `none` models a thrown `std::regex_error`). -/
def compilePattern (p : List Char) : Option RE :=
  match p with
  | '^' :: rest =>
    match rest.getLast? with
    | some '$' => compileBody rest.dropLast
    | _ => none
  | _ => none

/-- The regex atom a single name character compiles to. -/
def atomOf (c : Char) : RE :=
  if c = '*' then RE.star RE.any
  else if c = '?' then RE.alt RE.eps RE.any
  else RE.ch c

/-- The pattern-body segment generated for a single name character. -/
def globSeg (c : Char) : List Char :=
  if c = '*' then ['.', '*']
  else if c = '?' then ['.', '?']
  else if isSpecialChar c then ['\\', c]
  else [c]

/-- Left-nested sequence the compiler accumulates over a name. -/
def buildSeq (acc : RE) : List Char → RE
  | [] => acc
  | c :: t => buildSeq (RE.seq acc (atomOf c)) t

/-- Right-nested regex denotation of a glob pattern. -/
def reGlob : List Char → RE
  | [] => RE.eps
  | c :: t => RE.seq (atomOf c) (reGlob t)

/-- A name with no parenthesis (parentheses are the regex metacharacters
`Domain::UpdateRegex` does not escape). -/
def parenFree (name : List Char) : Bool :=
  name.all fun c => !(c = '(') && !(c = ')')

/-- Glob matching under the semantics the code actually compiles: `*` becomes
`.*` and `?` becomes `.?`, and ECMAScript `.` excludes line terminators, so
`*` consumes any sequence of non-line-terminator characters and `?` matches
zero or one non-line-terminator character. -/
def globOpt : List Char → List Char → Bool
  | [], [] => true
  | [], _ :: _ => false
  | p :: pt, [] =>
    if p = '*' then globOpt pt []
    else if p = '?' then globOpt pt []
    else false
  | p :: pt, c :: st =>
    if p = '*' then globOpt pt (c :: st) || (!isLineTerm c && globOpt (p :: pt) st)
    else if p = '?' then globOpt pt (c :: st) || (!isLineTerm c && globOpt pt st)
    else decide (c = p) && globOpt pt st
termination_by p s => p.length + s.length

/-- Standard anchored glob matching: `*` matches any sequence, `?` matches
exactly one character. -/
def globMatch : List Char → List Char → Bool
  | [], [] => true
  | [], _ :: _ => false
  | p :: pt, [] =>
    if p = '*' then globMatch pt []
    else false
  | p :: pt, c :: st =>
    if p = '*' then globMatch pt (c :: st) || globMatch (p :: pt) st
    else if p = '?' then globMatch pt st
    else decide (c = p) && globMatch pt st
termination_by p s => p.length + s.length

/-! ### Domain (orchestrator.h, struct Domain) -/

/-- `Orchestrator::Domain`.  `regex_for_domain = none` models the
default-constructed `std::regex`, which matches nothing. -/
structure Domain where
  name : List Char
  regex_for_domain : Option RE
  stream_map : List Nat
  state : ItemState

/-- `Domain::UpdateRegex`: build the pattern from `name`, try to construct the
regex; on success store it and return `true`, on a construction error return
`false` leaving `regex_for_domain` unchanged. -/
def Domain.updateRegexApply (d : Domain) : Bool × Domain :=
  match compilePattern (updateRegexPattern d.name) with
  | some r => (true, { d with regex_for_domain := some r })
  | none => (false, d)

/-- The `Domain` constructor: store the name, set `state = New`, call
`UpdateRegex()` and discard its result. -/
def mkDomain (name : List Char) : Domain :=
  (Domain.updateRegexApply
    { name := name, regex_for_domain := none, stream_map := [], state := ItemState.New }).2

/-- `Domain::IsValid`. -/
def Domain.IsValid (d : Domain) : Bool :=
  d.state != ItemState.Unknown

/-- Matching a candidate hostname against a domain's compiled regex
(`std::regex_match` against `regex_for_domain`). -/
def domainMatches (d : Domain) (s : List Char) : Bool :=
  match d.regex_for_domain with
  | some r => reMatchList r s
  | none => false

/-! ### Origin (orchestrator.h, struct Origin) -/

/-- One `<Url>` item of `<Origin><Pass><UrlList>`. -/
structure UrlItem where
  url : String
deriving DecidableEq, Repr

/-- The `<Pass>` block of an origin configuration (`cfg::Pass`). -/
structure PassConfig where
  scheme : String
  url_list : List UrlItem
deriving DecidableEq, Repr

/-- `cfg::OriginsOrigin`: one `<Origin>` configuration entry. -/
structure OriginsOrigin where
  location : String
  pass : PassConfig
deriving DecidableEq, Repr

/-- `Orchestrator::Origin`. -/
structure Origin where
  app_id : Nat
  scheme : String
  location : String
  url_list : List String
  origin_config : OriginsOrigin
  stream_map : List Nat
  state : ItemState

/-- The `Origin` constructor.  For each configured URL item it builds a local
scheme-prefixed copy (`url.Prepend("://"); url.Prepend(scheme)`) and then
pushes the original `item.GetUrl()` into `url_list`, so the prefixed local is
discarded. -/
def mkOrigin (origin_config : OriginsOrigin) : Origin :=
  let scheme := origin_config.pass.scheme
  { app_id := 0,
    scheme := scheme,
    location := origin_config.location,
    url_list := origin_config.pass.url_list.map fun item =>
      let url := item.url
      let url := "://" ++ url
      let url := scheme ++ url
      item.url,
    origin_config := origin_config,
    stream_map := [],
    state := ItemState.New }

/-- `Origin::IsValid`. -/
def Origin.IsValid (o : Origin) : Bool :=
  o.state != ItemState.Unknown

/-- Modelled from the spec: `GetUrlListForLocation` (implemented in
orchestrator.cpp, which is not part of this excerpt) resolves a pull by
concatenating each matching Origin's stored URLs with `/stream_name` appended,
prepending the scheme at dispatch time ("store raw, prepend scheme at dispatch
time"). -/
def dispatchUrls (o : Origin) (stream_name : String) : List String :=
  o.url_list.map fun u => o.scheme ++ "://" ++ u ++ "/" ++ stream_name

/-! ### VirtualHost (orchestrator.h, struct VirtualHost) -/

/-- `info::Host` (only its identity matters here). -/
structure HostInfo where
  name : String
deriving DecidableEq, Repr

/-- `Orchestrator::VirtualHost`. -/
structure VirtualHost where
  host_info : HostInfo
  name : String
  domain_list : List Domain
  origin_list : List Origin
  app_map : List Nat
  state : ItemState

/-- The `VirtualHost` constructor: store the host info and set `state = New`;
all lists start empty. -/
def mkVirtualHost (host_info : HostInfo) : VirtualHost :=
  { host_info := host_info,
    name := "",
    domain_list := [],
    origin_list := [],
    app_map := [],
    state := ItemState.New }

/-- The domain loop of `VirtualHost::MarkAllAs(expected_old_state, state)`:
check each domain's state before overwriting it; stop at the first mismatch,
leaving it and the rest untouched. -/
def markDomains (expected st : ItemState) : List Domain → Bool × List Domain
  | [] => (true, [])
  | d :: ds =>
    if d.state ≠ expected then (false, d :: ds)
    else
      let r := markDomains expected st ds
      (r.1, { d with state := st } :: r.2)

/-- The origin loop of `VirtualHost::MarkAllAs(expected_old_state, state)`. -/
def markOrigins (expected st : ItemState) : List Origin → Bool × List Origin
  | [] => (true, [])
  | o :: os =>
    if o.state ≠ expected then (false, o :: os)
    else
      let r := markOrigins expected st os
      (r.1, { o with state := st } :: r.2)

/-- `VirtualHost::MarkAllAs(expected_old_state, state)`: check-and-set the
virtual host's own state, then each domain, then each origin, returning
`false` at the first state that differs from `expected_old_state` — with
everything already visited left at the new state. -/
def markAllAs (vh : VirtualHost) (expected st : ItemState) : Bool × VirtualHost :=
  if vh.state ≠ expected then (false, vh)
  else if (markDomains expected st vh.domain_list).1 = false then
    (false,
      { vh with
          state := st,
          domain_list := (markDomains expected st vh.domain_list).2 })
  else
    ((markOrigins expected st vh.origin_list).1,
      { vh with
          state := st,
          domain_list := (markDomains expected st vh.domain_list).2,
          origin_list := (markOrigins expected st vh.origin_list).2 })

/-- The unconditional `VirtualHost::MarkAllAs(state)` overload. -/
def markAllAsUnconditional (vh : VirtualHost) (st : ItemState) : VirtualHost :=
  { vh with
    state := st,
    domain_list := vh.domain_list.map fun d => { d with state := st },
    origin_list := vh.origin_list.map fun o => { o with state := st } }

/-! ### Module registry (RegisterModule / UnregisterModule)

The bodies live in orchestrator.cpp, which is not part of this excerpt; the
model follows the header's doc comments and the specification. -/

/-- `Orchestrator::Module`: a registered module.  The `shared_ptr` reference
identity is modelled as a `Nat` id. -/
structure ModuleEntry where
  type : OrchestratorModuleType
  module : Nat
deriving DecidableEq, Repr

/-- Modelled from the spec: the registry state behind `RegisterModule` /
`UnregisterModule` — the flat `_module_list` (insertion order) and the
per-kind `_module_map`. -/
structure ModuleRegistry where
  module_list : List ModuleEntry
  module_map : OrchestratorModuleType → List Nat

/-- The empty registry. -/
def emptyRegistry : ModuleRegistry :=
  { module_list := [], module_map := fun _ => [] }

/-- Is this module reference already registered (under any kind)? -/
def containsModule (reg : ModuleRegistry) (m : Nat) : Bool :=
  reg.module_list.any fun e => e.module == m

/-- Modelled from the spec: `RegisterModule` — "inserts if absent; rejects if
the same reference is already present under a different kind", returning
`false` whenever the reference is already registered (header doc comment),
and otherwise appending to both the flat list and the per-kind grouping. -/
def registerModule (reg : ModuleRegistry) (ty : OrchestratorModuleType) (m : Nat) :
    Bool × ModuleRegistry :=
  if containsModule reg m then (false, reg)
  else
    (true,
      { module_list := reg.module_list ++ [{ type := ty, module := m }],
        module_map := fun t =>
          if t = ty then reg.module_map t ++ [m] else reg.module_map t })

/-- Modelled from the spec: `UnregisterModule` — "removes from both indexes;
returns false if not found". -/
def unregisterModule (reg : ModuleRegistry) (m : Nat) : Bool × ModuleRegistry :=
  if containsModule reg m then
    (true,
      { module_list := reg.module_list.filter fun e => !(e.module == m),
        module_map := fun t => (reg.module_map t).filter fun x => !(x == m) })
  else (false, reg)

/-- One registry call. -/
inductive RegOp
  | registerOp (ty : OrchestratorModuleType) (m : Nat)
  | unregisterOp (m : Nat)

/-- Apply one registry call, keeping only the state. -/
def applyRegOp (reg : ModuleRegistry) : RegOp → ModuleRegistry
  | .registerOp ty m => (registerModule reg ty m).2
  | .unregisterOp m => (unregisterModule reg m).2

/-- Apply a sequence of registry calls. -/
def applyRegOps : List RegOp → ModuleRegistry → ModuleRegistry
  | [], reg => reg
  | op :: ops, reg => applyRegOps ops (applyRegOp reg op)

/-- The module ids currently in the flat list. -/
def registryIds (reg : ModuleRegistry) : List Nat :=
  reg.module_list.map fun e => e.module

/-- One step of the ideal membership computation for a fixed module `m`:
a register turns it on, an unregister turns it off. -/
def netStep (m : Nat) (b : Bool) : RegOp → Bool
  | .registerOp _ m2 => b || (m2 == m)
  | .unregisterOp m2 => b && !(m2 == m)

/-- Whether module `m` ends up registered after a call sequence, computed
purely set-theoretically ("the registered-minus-unregistered set"). -/
def netRegistered (m : Nat) (ops : List RegOp) : Bool :=
  ops.foldl (netStep m) false

/-! ### CreateApplication fan-out (Application Coordinator)

`CreateApplication` is implemented in orchestrator.cpp, which is not part of
this excerpt; the fan-out is modelled from the spec (§4.5). -/

/-- A module-facing event of the create fan-out. -/
inductive FanEv
  | created (m : Nat)
  | deleted (m : Nat)
deriving DecidableEq, Repr

/-- Modelled from the spec: the create fan-out of `CreateApplication` — call
`OnCreateApplication` on each module in registration order; on the first
failure call `OnDeleteApplication` on every module that had successfully
created, in reverse order, and return `Failed`; if all succeed return
`Succeeded`.  `ok m` is module `m`'s `OnCreateApplication` outcome;
`succeeded` accumulates successful modules most-recent-first, so it is
exactly the reverse-order rollback sequence. -/
def createFanOut (ok : Nat → Bool) (succeeded : List Nat) :
    List Nat → Result × List FanEv
  | [] => (Result.Succeeded, [])
  | m :: ms =>
    if ok m then
      let r := createFanOut ok (m :: succeeded) ms
      (r.1, FanEv.created m :: r.2)
    else (Result.Failed, succeeded.map FanEv.deleted)

/-- Which modules hold the application after a trace of create/delete events:
a successful create adds the module, a delete removes it. -/
def holdersStep (hs : List Nat) : FanEv → List Nat
  | .created m => if hs.contains m then hs else hs ++ [m]
  | .deleted m => hs.filter fun x => !(x == m)

/-- The set of modules holding the application after a fan-out trace. -/
def holdersOf (t : List FanEv) : List Nat :=
  t.foldl holdersStep []

/-- The modules whose `OnCreateApplication` succeeded, in call order. -/
def createdOf (t : List FanEv) : List Nat :=
  t.filterMap fun e =>
    match e with
    | .created m => some m
    | .deleted _ => none

/-- The modules that received `OnDeleteApplication`, in call order. -/
def deletedOf (t : List FanEv) : List Nat :=
  t.filterMap fun e =>
    match e with
    | .created _ => none
    | .deleted m => some m

/-! ### Name resolution -/

/-- Modelled from the spec: `ResolveApplicationName(vhost, app)` builds the
canonical `"<vhost>#<app>"` form (implemented in orchestrator.cpp, not in
this excerpt). -/
def resolveApplicationName (vhost_name app_name : List Char) : List Char :=
  vhost_name ++ '#' :: app_name

/-- Modelled from the spec: `ParseVHostAppName` splits the canonical name on
the first `#`; a name with no `#` is malformed (an error). -/
def parseVHostAppName : List Char → Option (List Char × List Char)
  | [] => none
  | c :: cs =>
    if c = '#' then some ([], cs)
    else (parseVHostAppName cs).map fun p => (c :: p.1, p.2)

/-! ### RequestPullStream overloads (orchestrator.h, inline) -/

/-- The inline 3-argument `RequestPullStream` overload: delegates to the
explicit-URL overload with `offset = 0`.  The 4-argument overload (defined in
orchestrator.cpp) is abstracted as `full`; its result type is abstract so the
statement covers any modelled effect. -/
def requestPullStreamUrl {α : Type} (full : List Char → List Char → List Char → Int → α)
    (vhost_app_name stream_name url : List Char) : α :=
  full vhost_app_name stream_name url 0

/-- The inline 2-argument `RequestPullStream` overload: delegates to the
location-based overload with `offset = 0`. -/
def requestPullStreamLoc {α : Type} (full : List Char → List Char → Int → α)
    (vhost_app_name stream_name : List Char) : α :=
  full vhost_app_name stream_name 0

/-! ### Application observer callbacks (orchestrator.h, inline) -/

/-- `info::Application` (identity only). -/
structure AppInfo where
  id : Nat
deriving DecidableEq, Repr

/-- `info::Stream` (identity only). -/
structure StreamInfo where
  id : Nat
deriving DecidableEq, Repr

/-- A media packet (payload abstracted). -/
structure MediaPacket where
  payload : List Nat
deriving DecidableEq, Repr

/-- The whole mutable Orchestrator state visible to the observer callbacks. -/
structure OrchestratorState where
  registry : ModuleRegistry
  virtual_host_list : List VirtualHost

/-- `Orchestrator::Application` (the MediaRouteApplicationObserver). -/
structure Application where
  orchestrator : Nat
  app_info : AppInfo
deriving DecidableEq, Repr

/-- `Application::OnSendVideoFrame`: `return true;` — the packet is ignored and
no state is touched. -/
def Application.onSendVideoFrame (app : Application) (orch : OrchestratorState)
    (stream : StreamInfo) (media_packet : MediaPacket) :
    Bool × Application × OrchestratorState :=
  (true, app, orch)

/-- `Application::OnSendAudioFrame`: `return true;`. -/
def Application.onSendAudioFrame (app : Application) (orch : OrchestratorState)
    (stream : StreamInfo) (media_packet : MediaPacket) :
    Bool × Application × OrchestratorState :=
  (true, app, orch)

/-- `Application::OnSendFrame`: `return true;`. -/
def Application.onSendFrame (app : Application) (orch : OrchestratorState)
    (info : StreamInfo) (packet : MediaPacket) :
    Bool × Application × OrchestratorState :=
  (true, app, orch)

/-! ## Theorems -/

/-! ### Helper lemmas -/

theorem bool_eq_of_iff : ∀ (a b : Bool), (a = true ↔ b = true) → a = b := by decide

theorem mkDomain_name_state (n : List Char) :
    (mkDomain n).name = n ∧ (mkDomain n).state = ItemState.New := by
  unfold mkDomain Domain.updateRegexApply
  split <;> simp

theorem parse_resolve (v a : List Char) (hv : '#' ∉ v) :
    parseVHostAppName (resolveApplicationName v a) = some (v, a) := by
  induction v with
  | nil => simp [resolveApplicationName, parseVHostAppName]
  | cons c cs ih =>
    have hc : c ≠ '#' := fun hc => hv (hc ▸ List.mem_cons_self c cs)
    have hcs : '#' ∉ cs := fun hm => hv (List.mem_cons_of_mem c hm)
    simp [resolveApplicationName, parseVHostAppName, hc] at ih ⊢
    simpa [resolveApplicationName] using ih hcs

theorem createFanOut_eq (ok : Nat → Bool) :
    ∀ (mods succeeded : List Nat),
      createFanOut ok succeeded mods =
        if mods.all ok then (Result.Succeeded, mods.map FanEv.created)
        else (Result.Failed,
          (mods.takeWhile ok).map FanEv.created
            ++ ((mods.takeWhile ok).reverse ++ succeeded).map FanEv.deleted) := by
  intro mods
  induction mods with
  | nil => intro succeeded; simp [createFanOut]
  | cons m ms ih =>
    intro succeeded
    by_cases hok : ok m
    · by_cases hall : ms.all ok
      · simp [createFanOut, hok, ih, hall, List.takeWhile_cons]
      · simp [createFanOut, hok, ih, hall, List.takeWhile_cons, List.reverse_cons,
          List.append_assoc]
    · simp [createFanOut, hok, List.takeWhile_cons]

theorem createdOf_map_created (L : List Nat) : createdOf (L.map FanEv.created) = L := by
  induction L with
  | nil => rfl
  | cons m t ih => simp [createdOf] at ih ⊢; exact ih

theorem createdOf_map_deleted (M : List Nat) : createdOf (M.map FanEv.deleted) = [] := by
  induction M with
  | nil => rfl
  | cons m t ih => simp [createdOf]

theorem deletedOf_map_created (L : List Nat) : deletedOf (L.map FanEv.created) = [] := by
  induction L with
  | nil => rfl
  | cons m t ih => simp [deletedOf]

theorem deletedOf_map_deleted (M : List Nat) : deletedOf (M.map FanEv.deleted) = M := by
  induction M with
  | nil => rfl
  | cons m t ih => simp [deletedOf] at ih ⊢; exact ih

theorem holders_created_mem (L : List Nat) :
    ∀ (init : List Nat) (x : Nat),
      x ∈ List.foldl holdersStep init (L.map FanEv.created) ↔ x ∈ init ∨ x ∈ L := by
  induction L with
  | nil => intro init x; simp
  | cons m t ih =>
    intro init x
    have hstep : x ∈ holdersStep init (FanEv.created m) ↔ x ∈ init ∨ x = m := by
      by_cases hc : init.contains m
      · have hm : m ∈ init := by simpa using hc
        simp only [holdersStep, hc, if_pos]
        constructor
        · exact fun hx => Or.inl hx
        · rintro (hx | rfl)
          · exact hx
          · exact hm
      · simp only [holdersStep, hc]
        simp
    rw [List.map_cons, List.foldl_cons, ih (holdersStep init (FanEv.created m)) x, hstep]
    constructor
    · rintro ((hx | rfl) | hx)
      · exact Or.inl hx
      · exact Or.inr (List.mem_cons_self _ _)
      · exact Or.inr (List.mem_cons_of_mem _ hx)
    · rintro (hx | hx)
      · exact Or.inl (Or.inl hx)
      · rcases List.mem_cons.mp hx with rfl | hx
        · exact Or.inl (Or.inr rfl)
        · exact Or.inr hx

theorem holders_deleted_mem (M : List Nat) :
    ∀ (init : List Nat) (x : Nat),
      x ∈ List.foldl holdersStep init (M.map FanEv.deleted) ↔ x ∈ init ∧ x ∉ M := by
  induction M with
  | nil => intro init x; simp
  | cons m t ih =>
    intro init x
    have hstep : x ∈ holdersStep init (FanEv.deleted m) ↔ x ∈ init ∧ x ≠ m := by
      simp [holdersStep, List.mem_filter]
    rw [List.map_cons, List.foldl_cons, ih (holdersStep init (FanEv.deleted m)) x, hstep]
    constructor
    · rintro ⟨⟨hx, hne⟩, hnt⟩
      exact ⟨hx, by simp [hne, hnt]⟩
    · rintro ⟨hx, hnm⟩
      simp only [List.mem_cons, not_or] at hnm
      exact ⟨⟨hx, hnm.1⟩, hnm.2⟩

theorem holdersOf_rollback (L M : List Nat) (hLM : ∀ x ∈ L, x ∈ M) :
    holdersOf (L.map FanEv.created ++ M.map FanEv.deleted) = [] := by
  rw [List.eq_nil_iff_forall_not_mem]
  intro x hx
  rw [holdersOf, List.foldl_append, holders_deleted_mem, holders_created_mem] at hx
  rcases hx with ⟨hcr | hcr, hdel⟩
  · simp at hcr
  · exact hdel (hLM x hcr)

/-! ### Claim theorems (part 1) -/

/-- C1: if any module's `OnCreateApplication` fails during the create fan-out,
the Coordinator calls `OnDeleteApplication` on every module that successfully
created, in reverse order, and returns `Failed`; afterwards no module holds
the application. -/
theorem create_rollback (ok : Nat → Bool) (mods : List Nat)
    (h : mods.all ok = false) :
    (createFanOut ok [] mods).1 = Result.Failed
    ∧ createdOf (createFanOut ok [] mods).2 = mods.takeWhile ok
    ∧ deletedOf (createFanOut ok [] mods).2 =
        (createdOf (createFanOut ok [] mods).2).reverse
    ∧ holdersOf (createFanOut ok [] mods).2 = [] := by
  rw [createFanOut_eq ok mods [], if_neg (by simp [h])]
  have hca : ∀ (A B : List FanEv), createdOf (A ++ B) = createdOf A ++ createdOf B := by
    intro A B; simp [createdOf, List.filterMap_append]
  have hda : ∀ (A B : List FanEv), deletedOf (A ++ B) = deletedOf A ++ deletedOf B := by
    intro A B; simp [deletedOf, List.filterMap_append]
  set L := mods.takeWhile ok with hL
  have hc : createdOf (L.map FanEv.created ++ (L.reverse ++ []).map FanEv.deleted) = L := by
    rw [hca, createdOf_map_created, createdOf_map_deleted, List.append_nil]
  have hd : deletedOf (L.map FanEv.created ++ (L.reverse ++ []).map FanEv.deleted) =
      L.reverse := by
    rw [hda, deletedOf_map_created, deletedOf_map_deleted, List.nil_append,
      List.append_nil]
  refine ⟨rfl, hc, ?_, ?_⟩
  · rw [hd, hc]
  · rw [List.append_nil]
    exact holdersOf_rollback L L.reverse fun x hx => List.mem_reverse.mpr hx

/-! ### Regex engine correctness -/

theorem RMatch_fail_inv {s : List Char} (h : RMatch RE.fail s) : False := by
  cases h

theorem RMatch_eps_inv {s : List Char} (h : RMatch RE.eps s) : s = [] := by
  cases h
  rfl

theorem RMatch_ch_inv {c : Char} {s : List Char} (h : RMatch (RE.ch c) s) : s = [c] := by
  cases h
  rfl

theorem RMatch_any_inv {s : List Char} (h : RMatch RE.any s) :
    ∃ c, s = [c] ∧ isLineTerm c = false := by
  cases h with
  | any c hc => exact ⟨c, rfl, hc⟩

theorem RMatch_seq_inv {r1 r2 : RE} {s : List Char} (h : RMatch (RE.seq r1 r2) s) :
    ∃ s1 s2, s = s1 ++ s2 ∧ RMatch r1 s1 ∧ RMatch r2 s2 := by
  cases h with
  | seq h1 h2 => exact ⟨_, _, rfl, h1, h2⟩

theorem RMatch_alt_inv {r1 r2 : RE} {s : List Char} (h : RMatch (RE.alt r1 r2) s) :
    RMatch r1 s ∨ RMatch r2 s := by
  cases h with
  | altL h1 => exact Or.inl h1
  | altR h2 => exact Or.inr h2

theorem RMatch_star_inv {r : RE} {s : List Char} (h : RMatch (RE.star r) s) :
    s = [] ∨ ∃ s1 s2, s = s1 ++ s2 ∧ s1 ≠ [] ∧ RMatch r s1 ∧ RMatch (RE.star r) s2 := by
  generalize hr : RE.star r = r0 at h
  induction h with
  | eps => nomatch hr
  | ch c => nomatch hr
  | any c hc => nomatch hr
  | seq h1 h2 ih1 ih2 => nomatch hr
  | altL h1 ih1 => nomatch hr
  | altR h2 ih2 => nomatch hr
  | starNil => exact Or.inl rfl
  | starCons h1 h2 ih1 ih2 =>
    rename_i r1 s1 s2
    injection hr with hr1
    subst hr1
    by_cases hs1 : s1 = []
    · subst hs1
      simpa using ih2 rfl
    · exact Or.inr ⟨s1, s2, rfl, hs1, h1, h2⟩

theorem RMatch_star_cons_split {r : RE} {c : Char} {s : List Char}
    (h : RMatch (RE.star r) (c :: s)) :
    ∃ s1 s2, s = s1 ++ s2 ∧ RMatch r (c :: s1) ∧ RMatch (RE.star r) s2 := by
  rcases RMatch_star_inv h with heq | ⟨s1, s2, heq, hne, h1, h2⟩
  · exact absurd heq (List.cons_ne_nil c s)
  · cases s1 with
    | nil => exact absurd rfl hne
    | cons a s1 =>
      rw [List.cons_append] at heq
      injection heq with hac htail
      subst hac
      exact ⟨s1, s2, htail, h1, h2⟩

theorem nullable_iff (r : RE) : nullable r = true ↔ RMatch r [] := by
  induction r with
  | fail => simp [nullable]; exact RMatch_fail_inv
  | eps => simp [nullable]; exact RMatch.eps
  | ch c => simp [nullable]; intro h; nomatch RMatch_ch_inv h
  | any => simp [nullable]; intro h; rcases RMatch_any_inv h with ⟨c, hc, hterm⟩; nomatch hc
  | seq r1 r2 ih1 ih2 =>
    simp only [nullable, Bool.and_eq_true, ih1, ih2]
    constructor
    · rintro ⟨h1, h2⟩
      exact @RMatch.seq _ _ [] [] h1 h2
    · intro h
      rcases RMatch_seq_inv h with ⟨s1, s2, heq, h1, h2⟩
      rcases List.append_eq_nil.mp heq.symm with ⟨he1, he2⟩
      exact ⟨he1 ▸ h1, he2 ▸ h2⟩
  | alt r1 r2 ih1 ih2 =>
    simp only [nullable, Bool.or_eq_true, ih1, ih2]
    constructor
    · rintro (h1 | h2)
      · exact RMatch.altL h1
      · exact RMatch.altR h2
    · intro h
      exact RMatch_alt_inv h
  | star r1 ih =>
    simp [nullable]
    exact RMatch.starNil

theorem deriv_sound (r : RE) (c : Char) : ∀ (s : List Char),
    RMatch (deriv r c) s → RMatch r (c :: s) := by
  induction r with
  | fail => intro s h; exact absurd h RMatch_fail_inv
  | eps => intro s h; exact absurd h RMatch_fail_inv
  | ch d =>
    intro s h
    rw [deriv] at h
    by_cases hdc : d = c
    · rw [if_pos hdc] at h
      rw [RMatch_eps_inv h, hdc]
      exact RMatch.ch c
    · rw [if_neg hdc] at h
      exact absurd h RMatch_fail_inv
  | any =>
    intro s h
    rw [deriv] at h
    by_cases hterm : isLineTerm c = true
    · rw [if_pos hterm] at h
      exact absurd h RMatch_fail_inv
    · rw [if_neg hterm] at h
      rw [RMatch_eps_inv h]
      exact RMatch.any c (by simpa using hterm)
  | seq r1 r2 ih1 ih2 =>
    intro s h
    rw [deriv] at h
    have hmain : ∀ s0, RMatch (RE.seq (deriv r1 c) r2) s0 → RMatch (RE.seq r1 r2) (c :: s0) := by
      intro s0 h0
      rcases RMatch_seq_inv h0 with ⟨s1, s2, heq, h1, h2⟩
      subst heq
      rw [show c :: (s1 ++ s2) = (c :: s1) ++ s2 from rfl]
      exact RMatch.seq (ih1 s1 h1) h2
    by_cases hn : nullable r1
    · rw [if_pos hn] at h
      rcases RMatch_alt_inv h with h0 | h0
      · exact hmain s h0
      · have h1 : RMatch r1 [] := (nullable_iff r1).mp hn
        have h2 : RMatch r2 (c :: s) := ih2 s h0
        exact @RMatch.seq _ _ [] _ h1 h2
    · rw [if_neg hn] at h
      exact hmain s h
  | alt r1 r2 ih1 ih2 =>
    intro s h
    rw [deriv] at h
    rcases RMatch_alt_inv h with h0 | h0
    · exact RMatch.altL (ih1 s h0)
    · exact RMatch.altR (ih2 s h0)
  | star r1 ih =>
    intro s h
    rw [deriv] at h
    rcases RMatch_seq_inv h with ⟨s1, s2, heq, h1, h2⟩
    subst heq
    rw [show c :: (s1 ++ s2) = (c :: s1) ++ s2 from rfl]
    exact RMatch.starCons (ih s1 h1) h2

theorem deriv_complete (r : RE) (c : Char) : ∀ (s : List Char),
    RMatch r (c :: s) → RMatch (deriv r c) s := by
  induction r with
  | fail => intro s h; exact absurd h RMatch_fail_inv
  | eps => intro s h; nomatch RMatch_eps_inv h
  | ch d =>
    intro s h
    have heq := RMatch_ch_inv h
    injection heq with h1 h2
    subst h1
    subst h2
    rw [deriv, if_pos rfl]
    exact RMatch.eps
  | any =>
    intro s h
    rcases RMatch_any_inv h with ⟨d, hd, hterm⟩
    injection hd with h1 h2
    subst h2
    subst h1
    rw [deriv, if_neg (by simp [hterm])]
    exact RMatch.eps
  | seq r1 r2 ih1 ih2 =>
    intro s h
    rcases RMatch_seq_inv h with ⟨s1, s2, heq, h1, h2⟩
    cases s1 with
    | nil =>
      rw [List.nil_append] at heq
      subst heq
      have hn : nullable r1 = true := (nullable_iff r1).mpr h1
      rw [deriv, if_pos hn]
      exact RMatch.altR (ih2 s h2)
    | cons a s1 =>
      rw [List.cons_append] at heq
      injection heq with hac htail
      subst hac
      subst htail
      have hseq : RMatch (RE.seq (deriv r1 c) r2) (s1 ++ s2) :=
        RMatch.seq (ih1 s1 h1) h2
      rw [deriv]
      by_cases hn : nullable r1
      · rw [if_pos hn]
        exact RMatch.altL hseq
      · rw [if_neg hn]
        exact hseq
  | alt r1 r2 ih1 ih2 =>
    intro s h
    rw [deriv]
    rcases RMatch_alt_inv h with h0 | h0
    · exact RMatch.altL (ih1 s h0)
    · exact RMatch.altR (ih2 s h0)
  | star r1 ih =>
    intro s h
    rcases RMatch_star_cons_split h with ⟨s1, s2, heq, h1, h2⟩
    subst heq
    rw [deriv]
    exact RMatch.seq (ih s1 h1) h2

theorem reMatch_iff : ∀ (s : List Char) (r : RE), reMatchList r s = true ↔ RMatch r s := by
  intro s
  induction s with
  | nil => intro r; rw [reMatchList]; exact nullable_iff r
  | cons c cs ih =>
    intro r
    rw [reMatchList, ih (deriv r c)]
    exact ⟨fun h => deriv_sound r c cs h, fun h => deriv_complete r c cs h⟩

theorem RMatch_seq_eps_iff (r : RE) (s : List Char) :
    RMatch (RE.seq RE.eps r) s ↔ RMatch r s := by
  constructor
  · intro h
    rcases RMatch_seq_inv h with ⟨s1, s2, heq, h1, h2⟩
    rw [RMatch_eps_inv h1] at heq
    rw [List.nil_append] at heq
    exact heq ▸ h2
  · intro h
    exact @RMatch.seq _ _ [] _ RMatch.eps h

theorem RMatch_seq_assoc_iff (a b c : RE) (s : List Char) :
    RMatch (RE.seq (RE.seq a b) c) s ↔ RMatch (RE.seq a (RE.seq b c)) s := by
  constructor
  · intro h
    rcases RMatch_seq_inv h with ⟨s12, s3, heq, h12, h3⟩
    rcases RMatch_seq_inv h12 with ⟨s1, s2, heq2, h1, h2⟩
    subst heq
    subst heq2
    rw [List.append_assoc]
    exact RMatch.seq h1 (RMatch.seq h2 h3)
  · intro h
    rcases RMatch_seq_inv h with ⟨s1, s23, heq, h1, h23⟩
    rcases RMatch_seq_inv h23 with ⟨s2, s3, heq2, h2, h3⟩
    subst heq
    subst heq2
    rw [← List.append_assoc]
    exact RMatch.seq (RMatch.seq h1 h2) h3

theorem buildSeq_lang : ∀ (t : List Char) (acc : RE) (s : List Char),
    RMatch (buildSeq acc t) s ↔ RMatch (RE.seq acc (reGlob t)) s := by
  intro t
  induction t with
  | nil =>
    intro acc s
    rw [buildSeq, reGlob]
    constructor
    · intro h
      have h2 : RMatch (RE.seq acc RE.eps) (s ++ []) := RMatch.seq h RMatch.eps
      rw [List.append_nil] at h2
      exact h2
    · intro h
      rcases RMatch_seq_inv h with ⟨s1, s2, heq, h1, h2⟩
      rw [RMatch_eps_inv h2] at heq
      rw [List.append_nil] at heq
      exact heq ▸ h1
  | cons c t ih =>
    intro acc s
    rw [buildSeq, reGlob]
    rw [ih (RE.seq acc (atomOf c)) s]
    exact RMatch_seq_assoc_iff acc (atomOf c) (reGlob t) s

theorem star_any_all (s : List Char) (h : ∀ c ∈ s, isLineTerm c = false) :
    RMatch (RE.star RE.any) s := by
  induction s with
  | nil => exact RMatch.starNil
  | cons c cs ih =>
    exact RMatch.starCons (RMatch.any c (h c (List.mem_cons_self c cs)))
      (ih fun d hd => h d (List.mem_cons_of_mem c hd))

theorem star_any_chars {s : List Char} (h : RMatch (RE.star RE.any) s) :
    ∀ c ∈ s, isLineTerm c = false := by
  generalize hr : RE.star RE.any = r0 at h
  induction h with
  | eps => nomatch hr
  | ch c => nomatch hr
  | any c hc => nomatch hr
  | seq h1 h2 ih1 ih2 => nomatch hr
  | altL h1 ih1 => nomatch hr
  | altR h2 ih2 => nomatch hr
  | starNil => intro c hc; nomatch hc
  | starCons h1 h2 ih1 ih2 =>
    rename_i r1 s1 s2
    injection hr with hr1
    subst hr1
    rcases RMatch_any_inv h1 with ⟨d, hd, hterm⟩
    subst hd
    intro c hc
    rcases List.mem_append.mp hc with hc1 | hc2
    · rcases List.mem_singleton.mp hc1 with rfl
      exact hterm
    · exact ih2 rfl c hc2

theorem globOpt_star (t : List Char) : ∀ (s : List Char),
    globOpt ('*' :: t) s = true ↔
      ∃ s1 s2, s = s1 ++ s2 ∧ (∀ c ∈ s1, isLineTerm c = false)
        ∧ globOpt t s2 = true := by
  intro s
  induction s with
  | nil =>
    rw [globOpt, if_pos rfl]
    constructor
    · intro h
      exact ⟨[], [], rfl, by simp, h⟩
    · rintro ⟨s1, s2, heq, hterm, h⟩
      rcases List.append_eq_nil.mp heq.symm with ⟨he1, he2⟩
      exact he2 ▸ h
  | cons c st ih =>
    rw [globOpt, if_pos rfl, Bool.or_eq_true]
    constructor
    · rintro (h | h)
      · exact ⟨[], c :: st, rfl, by simp, h⟩
      · rw [Bool.and_eq_true, Bool.not_eq_true'] at h
        rcases ih.mp h.2 with ⟨s1, s2, heq, hterm, h2⟩
        refine ⟨c :: s1, s2, by rw [heq, List.cons_append], ?_, h2⟩
        intro d hd
        rcases List.mem_cons.mp hd with rfl | hd2
        · exact h.1
        · exact hterm d hd2
    · rintro ⟨s1, s2, heq, hterm, h2⟩
      cases s1 with
      | nil =>
        rw [List.nil_append] at heq
        exact Or.inl (heq ▸ h2)
      | cons a s1 =>
        rw [List.cons_append] at heq
        injection heq with hac htail
        subst hac
        refine Or.inr ?_
        rw [Bool.and_eq_true, Bool.not_eq_true']
        exact ⟨hterm c (List.mem_cons_self c s1),
          ih.mpr ⟨s1, s2, htail, fun d hd => hterm d (List.mem_cons_of_mem c hd), h2⟩⟩

theorem reGlob_iff : ∀ (p s : List Char), RMatch (reGlob p) s ↔ globOpt p s = true := by
  intro p
  induction p with
  | nil =>
    intro s
    rw [reGlob]
    cases s with
    | nil => simp [globOpt]; exact RMatch.eps
    | cons c st =>
      simp [globOpt]
      intro h
      nomatch RMatch_eps_inv h
  | cons c t ih =>
    intro s
    rw [reGlob]
    by_cases hstar : c = '*'
    · subst hstar
      rw [show atomOf '*' = RE.star RE.any from rfl]
      rw [globOpt_star t s]
      constructor
      · intro h
        rcases RMatch_seq_inv h with ⟨s1, s2, heq, h1, h2⟩
        exact ⟨s1, s2, heq, star_any_chars h1, (ih s2).mp h2⟩
      · rintro ⟨s1, s2, heq, hterm, h2⟩
        exact heq ▸ RMatch.seq (star_any_all s1 hterm) ((ih s2).mpr h2)
    · by_cases hopt : c = '?'
      · subst hopt
        rw [show atomOf '?' = RE.alt RE.eps RE.any from rfl]
        cases s with
        | nil =>
          rw [globOpt, if_neg (by decide), if_pos rfl]
          constructor
          · intro h
            rcases RMatch_seq_inv h with ⟨s1, s2, heq, h1, h2⟩
            rcases List.append_eq_nil.mp heq.symm with ⟨he1, he2⟩
            exact (ih []).mp (he2 ▸ h2)
          · intro h
            exact @RMatch.seq _ _ [] _ (RMatch.altL RMatch.eps) ((ih []).mpr h)
        | cons a st =>
          rw [globOpt, if_neg (by decide), if_pos rfl, Bool.or_eq_true]
          constructor
          · intro h
            rcases RMatch_seq_inv h with ⟨s1, s2, heq, h1, h2⟩
            rcases RMatch_alt_inv h1 with h1 | h1
            · rw [RMatch_eps_inv h1] at heq
              rw [List.nil_append] at heq
              exact Or.inl ((ih (a :: st)).mp (heq ▸ h2))
            · rcases RMatch_any_inv h1 with ⟨d, hd, hterm⟩
              subst hd
              simp only [List.cons_append, List.nil_append] at heq
              injection heq with had htail
              subst had
              refine Or.inr ?_
              rw [Bool.and_eq_true, Bool.not_eq_true']
              exact ⟨hterm, (ih st).mp (htail ▸ h2)⟩
          · rintro (h | h)
            · exact @RMatch.seq _ _ [] _ (RMatch.altL RMatch.eps) ((ih (a :: st)).mpr h)
            · rw [Bool.and_eq_true, Bool.not_eq_true'] at h
              have h2 : RMatch (RE.seq (RE.alt RE.eps RE.any) (reGlob t)) ([a] ++ st) :=
                RMatch.seq (RMatch.altR (RMatch.any a h.1)) ((ih st).mpr h.2)
              exact h2
      · rw [show atomOf c = RE.ch c from by rw [atomOf, if_neg hstar, if_neg hopt]]
        cases s with
        | nil =>
          rw [globOpt, if_neg hstar, if_neg hopt]
          simp only [Bool.false_eq_true, iff_false]
          intro h
          rcases RMatch_seq_inv h with ⟨s1, s2, heq, h1, h2⟩
          rw [RMatch_ch_inv h1] at heq
          nomatch heq
        | cons a st =>
          rw [globOpt, if_neg hstar, if_neg hopt, Bool.and_eq_true]
          constructor
          · intro h
            rcases RMatch_seq_inv h with ⟨s1, s2, heq, h1, h2⟩
            rw [RMatch_ch_inv h1] at heq
            simp only [List.cons_append, List.nil_append] at heq
            injection heq with hac htail
            exact ⟨by simp [hac], (ih st).mp (htail ▸ h2)⟩
          · rintro ⟨hac, h2⟩
            have hac2 : a = c := by simpa using hac
            subst hac2
            have h3 : RMatch (RE.seq (RE.ch a) (reGlob t)) ([a] ++ st) :=
              RMatch.seq (RMatch.ch a) ((ih st).mpr h2)
            exact h3

/-! ### The pattern pipeline produces segment-wise glob regexes -/

theorem escapeSpecial_cons (c : Char) (t : List Char) :
    escapeSpecial (c :: t) =
      (if isSpecialChar c then ['\\', c] else [c]) ++ escapeSpecial t := by
  by_cases h : isSpecialChar c <;> simp [escapeSpecial, h]

theorem replaceChar_append (c : Char) (rep : List Char) :
    ∀ (l1 l2 : List Char),
      replaceChar c rep (l1 ++ l2) = replaceChar c rep l1 ++ replaceChar c rep l2 := by
  intro l1
  induction l1 with
  | nil => intro l2; simp [replaceChar]
  | cons d ds ih =>
    intro l2
    by_cases h : d = c <;> simp [replaceChar, h, ih, List.append_assoc]

theorem special_not_star {c : Char} (h : isSpecialChar c = true) : c ≠ '*' := by
  intro hc
  subst hc
  nomatch h

theorem special_not_quant {c : Char} (h : isSpecialChar c = true) : c ≠ '?' := by
  intro hc
  subst hc
  nomatch h

theorem seg_reduce (c : Char) :
    replaceChar '?' ['.', '?']
        (replaceChar '*' ['.', '*'] (if isSpecialChar c then ['\\', c] else [c]))
      = globSeg c := by
  by_cases hstar : c = '*'
  · subst hstar; rfl
  · by_cases hopt : c = '?'
    · subst hopt; rfl
    · by_cases hsp : isSpecialChar c
      · rw [if_pos hsp, globSeg, if_neg hstar, if_neg hopt, if_pos hsp]
        simp [replaceChar, hstar, hopt]
      · rw [if_neg hsp, globSeg, if_neg hstar, if_neg hopt, if_neg hsp]
        simp [replaceChar, hstar, hopt]

theorem updateRegexBody_nil : updateRegexBody [] = [] := rfl

theorem updateRegexBody_cons (c : Char) (t : List Char) :
    updateRegexBody (c :: t) = globSeg c ++ updateRegexBody t := by
  rw [updateRegexBody, escapeSpecial_cons, replaceChar_append, replaceChar_append,
    seg_reduce, updateRegexBody]

theorem length_le_body : ∀ (t : List Char), t.length ≤ (updateRegexBody t).length := by
  intro t
  induction t with
  | nil => simp [updateRegexBody_nil]
  | cons c t ih =>
    rw [updateRegexBody_cons, List.length_append, List.length_cons]
    have hseg : 1 ≤ (globSeg c).length := by
      rw [globSeg]
      by_cases h1 : c = '*'
      · simp [h1]
      · by_cases h2 : c = '?'
        · simp [h1, h2]
        · by_cases h3 : isSpecialChar c <;> simp [h1, h2, h3]
    omega

theorem applyQuant_body (atom : RE) (t : List Char) :
    applyQuant atom (updateRegexBody t) = (atom, updateRegexBody t) := by
  cases t with
  | nil => rw [updateRegexBody_nil, applyQuant]
  | cons c t =>
    rw [updateRegexBody_cons]
    by_cases h1 : c = '*'
    · subst h1
      rw [show globSeg '*' = ['.', '*'] from rfl]
      rw [List.cons_append, applyQuant]
      simp
    · by_cases h2 : c = '?'
      · subst h2
        rw [show globSeg '?' = ['.', '?'] from rfl]
        rw [List.cons_append, applyQuant]
        simp
      · by_cases h3 : isSpecialChar c
        · rw [globSeg, if_neg h1, if_neg h2, if_pos h3]
          rw [List.cons_append, applyQuant]
          simp
        · rw [globSeg, if_neg h1, if_neg h2, if_neg h3]
          rw [List.cons_append, applyQuant]
          simp [h1, h2]

theorem not_special_facts {c : Char} (h : isSpecialChar c = false) :
    c ≠ '[' ∧ c ≠ '\\' ∧ c ≠ '.' ∧ c ≠ '/' ∧ c ≠ '+' ∧ c ≠ '{' ∧ c ≠ '}'
      ∧ c ≠ '$' ∧ c ≠ '^' ∧ c ≠ '|' := by
  simp only [isSpecialChar, Bool.or_eq_false_iff, decide_eq_false_iff_not] at h
  exact ⟨h.1.1.1.1.1.1.1.1.1, h.1.1.1.1.1.1.1.1.2, h.1.1.1.1.1.1.1.2, h.1.1.1.1.1.1.2,
    h.1.1.1.1.1.2, h.1.1.1.1.2, h.1.1.1.2, h.1.1.2, h.1.2, h.2⟩

theorem parseReAux_literal (f : Nat) (c : Char) (rest : List Char) (acc : RE)
    (h1 : c ≠ ')') (h2 : c ≠ '\\') (h3 : c ≠ '.') (h4 : c ≠ '(') (h5 : c ≠ '*')
    (h6 : c ≠ '?') (h7 : c ≠ '^') (h8 : c ≠ '$') (h9 : c ≠ '[') :
    parseReAux (f + 1) (c :: rest) acc =
      parseReAux f (applyQuant (RE.ch c) rest).2
        (RE.seq acc (applyQuant (RE.ch c) rest).1) := by
  rw [parseReAux.eq_def]
  simp [h1, h2, h3, h4, h5, h6, h7, h8, h9]

theorem parse_body : ∀ (name : List Char), parenFree name = true →
    ∀ (fuel : Nat), name.length + 1 ≤ fuel → ∀ (acc : RE),
      parseReAux fuel (updateRegexBody name) acc = some (buildSeq acc name, []) := by
  intro name
  induction name with
  | nil =>
    intro hpf fuel hfuel acc
    cases fuel with
    | zero => omega
    | succ f => rw [updateRegexBody_nil, buildSeq, parseReAux]
  | cons c t ih =>
    intro hpf fuel hfuel acc
    have hpf2 : (c ≠ '(' ∧ c ≠ ')') ∧ parenFree t = true := by
      simpa [parenFree] using hpf
    cases fuel with
    | zero => omega
    | succ f =>
      have hfuel2 : t.length + 1 ≤ f := by
        simp only [List.length_cons] at hfuel
        omega
      rw [updateRegexBody_cons, buildSeq]
      by_cases h1 : c = '*'
      · subst h1
        rw [show globSeg '*' = ['.', '*'] from rfl, List.cons_append, List.cons_append,
          List.nil_append, parseReAux]
        rw [if_neg (by decide), if_neg (by decide), if_pos rfl]
        rw [show applyQuant RE.any ('*' :: updateRegexBody t) =
            (RE.star RE.any, updateRegexBody t) from by rw [applyQuant]; simp]
        rw [show atomOf '*' = RE.star RE.any from rfl]
        exact ih hpf2.2 f hfuel2 (RE.seq acc (RE.star RE.any))
      · by_cases h2 : c = '?'
        · subst h2
          rw [show globSeg '?' = ['.', '?'] from rfl, List.cons_append, List.cons_append,
            List.nil_append, parseReAux]
          rw [if_neg (by decide), if_neg (by decide), if_pos rfl]
          rw [show applyQuant RE.any ('?' :: updateRegexBody t) =
              (RE.alt RE.eps RE.any, updateRegexBody t) from by rw [applyQuant]; simp]
          rw [show atomOf '?' = RE.alt RE.eps RE.any from rfl]
          exact ih hpf2.2 f hfuel2 (RE.seq acc (RE.alt RE.eps RE.any))
        · by_cases h3 : isSpecialChar c
          · rw [globSeg, if_neg h1, if_neg h2, if_pos h3, List.cons_append,
              List.cons_append, List.nil_append, parseReAux]
            rw [if_neg (by decide), if_pos rfl]
            rw [applyQuant_body (RE.ch c) t]
            rw [show atomOf c = RE.ch c from by rw [atomOf, if_neg h1, if_neg h2]]
            exact ih hpf2.2 f hfuel2 (RE.seq acc (RE.ch c))
          · obtain ⟨hb1, hb2, hb3, hb4, hb5, hb6, hb7, hb8, hb9, hb10⟩ :=
              not_special_facts (by simpa using h3)
            rw [globSeg, if_neg h1, if_neg h2, if_neg h3, List.cons_append,
              List.nil_append]
            rw [parseReAux_literal f c (updateRegexBody t) acc hpf2.1.2 hb2 hb3
              hpf2.1.1 h1 h2 hb9 hb8 hb1]
            rw [applyQuant_body (RE.ch c) t]
            rw [show atomOf c = RE.ch c from by rw [atomOf, if_neg h1, if_neg h2]]
            exact ih hpf2.2 f hfuel2 (RE.seq acc (RE.ch c))

theorem compile_pattern_glob (name : List Char) (h : parenFree name = true) :
    compilePattern (updateRegexPattern name) = some (buildSeq RE.eps name) := by
  rw [updateRegexPattern, compilePattern]
  rw [List.getLast?_concat, List.dropLast_concat]
  rw [compileBody]
  rw [parse_body name h ((updateRegexBody name).length + 1)
    (by have := length_le_body name; omega) RE.eps]
  rfl

theorem mkDomain_regex_of_ok (name : List Char) (h : parenFree name = true) :
    (mkDomain name).regex_for_domain = some (buildSeq RE.eps name) := by
  have hc := compile_pattern_glob name h
  simp only [mkDomain, Domain.updateRegexApply, hc]

/-- C3 (amended): `Domain::UpdateRegex` escapes only `[ \ . / + { } $ ^ |`
(parentheses are not escaped), replaces `*` by `.*` and `?` by `.?`, and
anchors with `^`/`$`; since ECMAScript `.` excludes line terminators, for
every name containing no parenthesis the compiled predicate matches a
candidate exactly when the anchored glob does with `*` consuming only
non-line-terminator characters and `?` matching zero or one
non-line-terminator character. -/
theorem updateRegex_glob (name s : List Char) (h : parenFree name = true) :
    domainMatches (mkDomain name) s = globOpt name s := by
  have hreg := mkDomain_regex_of_ok name h
  rw [domainMatches, hreg]
  apply bool_eq_of_iff
  exact (reMatch_iff s (buildSeq RE.eps name)).trans
    ((buildSeq_lang name RE.eps s).trans
      ((RMatch_seq_eps_iff (reGlob name) s).trans (reGlob_iff name s)))

/-- Witness for the amended C3 at the pattern `*.a` and candidate `x.a`. -/
theorem updateRegex_glob_witness :
    parenFree ['*', '.', 'a'] = true
    ∧ domainMatches (mkDomain ['*', '.', 'a']) ['x', '.', 'a']
        = globOpt ['*', '.', 'a'] ['x', '.', 'a'] :=
  ⟨by decide, updateRegex_glob ['*', '.', 'a'] ['x', '.', 'a'] (by decide)⟩

/-- Counterexample to C3 as stated: for the name `a?` the compiled predicate
(`^a.?$`) accepts the candidate `a`, while the anchored glob `a?` (where `?`
must consume exactly one character) rejects it. -/
theorem updateRegex_not_glob :
    domainMatches (mkDomain ['a', '?']) ['a'] = true
    ∧ globMatch ['a', '?'] ['a'] = false := by
  constructor
  · rfl
  · simp [globMatch]

/-- C6: when the generated pattern is rejected by the regex engine,
`UpdateRegex` returns `false` instead of propagating the error, the `Domain`
is still constructed in state `New`, and its matcher accepts no input. -/
theorem domain_invalid_regex (name : List Char)
    (h : compilePattern (updateRegexPattern name) = none) :
    (Domain.updateRegexApply { name := name, regex_for_domain := none, stream_map := [], state := ItemState.New }).1 = false
    ∧ (mkDomain name).name = name
    ∧ (mkDomain name).state = ItemState.New
    ∧ ∀ s, domainMatches (mkDomain name) s = false := by
  have happ : Domain.updateRegexApply
      { name := name, regex_for_domain := none, stream_map := [], state := ItemState.New }
      = (false, { name := name, regex_for_domain := none, stream_map := [], state := ItemState.New }) := by
    simp only [Domain.updateRegexApply, h]
  have hdom : mkDomain name
      = { name := name, regex_for_domain := none, stream_map := [], state := ItemState.New } := by
    rw [mkDomain, happ]
  refine ⟨by rw [happ], by rw [hdom], by rw [hdom], ?_⟩
  intro s
  rw [hdom, domainMatches]

/-- Witness for C6 at the name `(` (whose pattern `^($` is an invalid regex). -/
theorem domain_invalid_regex_witness :
    compilePattern (updateRegexPattern ['(']) = none
    ∧ (Domain.updateRegexApply { name := ['('], regex_for_domain := none, stream_map := [], state := ItemState.New }).1 = false
    ∧ (mkDomain ['(']).state = ItemState.New
    ∧ domainMatches (mkDomain ['(']) ['x'] = false :=
  ⟨by decide, (domain_invalid_regex ['('] (by decide)).1,
    (domain_invalid_regex ['('] (by decide)).2.2.1,
    (domain_invalid_regex ['('] (by decide)).2.2.2 ['x']⟩

theorem takeWhile_of_all {α : Type} (p : α → Bool) (l : List α)
    (h : ∀ x ∈ l, p x = true) : l.takeWhile p = l ∧ l.dropWhile p = [] := by
  induction l with
  | nil => simp
  | cons a t ih =>
    have ha := h a (List.mem_cons_self a t)
    have ht := ih fun x hx => h x (List.mem_cons_of_mem a hx)
    simp [List.takeWhile_cons, List.dropWhile_cons, ha, ht.1, ht.2]

theorem markDomains_eq (e s : ItemState) (ds : List Domain) :
    markDomains e s ds =
      (ds.all fun d => d.state == e,
        (ds.takeWhile fun d => d.state == e).map (fun d => { d with state := s })
          ++ ds.dropWhile fun d => d.state == e) := by
  induction ds with
  | nil => simp [markDomains]
  | cons d t ih =>
    by_cases hd : d.state = e
    · simp [markDomains, hd, ih, List.takeWhile_cons, List.dropWhile_cons]
    · simp [markDomains, hd, List.takeWhile_cons, List.dropWhile_cons]

theorem markOrigins_eq (e s : ItemState) (os : List Origin) :
    markOrigins e s os =
      (os.all fun o => o.state == e,
        (os.takeWhile fun o => o.state == e).map (fun o => { o with state := s })
          ++ os.dropWhile fun o => o.state == e) := by
  induction os with
  | nil => simp [markOrigins]
  | cons o t ih =>
    by_cases ho : o.state = e
    · simp [markOrigins, ho, ih, List.takeWhile_cons, List.dropWhile_cons]
    · simp [markOrigins, ho, List.takeWhile_cons, List.dropWhile_cons]

theorem markAllAs_fst (vh : VirtualHost) (e s : ItemState) :
    (markAllAs vh e s).1 =
      (decide (vh.state = e) && (vh.domain_list.all fun d => d.state == e)
        && (vh.origin_list.all fun o => o.state == e)) := by
  by_cases hv : vh.state = e
  · rw [markAllAs, if_neg (by simp [hv]), markDomains_eq, markOrigins_eq]
    by_cases hd : vh.domain_list.all fun d => d.state == e
    · simp [hd, hv]
    · simp only [Bool.not_eq_true] at hd
      simp [hd, hv]
  · rw [markAllAs, if_pos (by simp [hv])]
    simp [hv]

theorem markAllAs_snd_mismatch (vh : VirtualHost) (e s : ItemState)
    (hv : vh.state ≠ e) : markAllAs vh e s = (false, vh) := by
  rw [markAllAs, if_pos (by simp [hv])]

theorem markAllAs_snd_state (vh : VirtualHost) (e s : ItemState)
    (hv : vh.state = e) : (markAllAs vh e s).2.state = s := by
  rw [markAllAs, if_neg (by simp [hv])]
  split <;> rfl

theorem markAllAs_snd_domains (vh : VirtualHost) (e s : ItemState)
    (hv : vh.state = e) :
    (markAllAs vh e s).2.domain_list =
      (vh.domain_list.takeWhile fun d => d.state == e).map (fun d => { d with state := s })
        ++ vh.domain_list.dropWhile fun d => d.state == e := by
  rw [markAllAs, if_neg (by simp [hv]), markDomains_eq]
  split <;> rfl

theorem markAllAs_snd_origins_pass (vh : VirtualHost) (e s : ItemState)
    (hv : vh.state = e) (hd : ∀ d ∈ vh.domain_list, d.state = e) :
    (markAllAs vh e s).2.origin_list =
      (vh.origin_list.takeWhile fun o => o.state == e).map (fun o => { o with state := s })
        ++ vh.origin_list.dropWhile fun o => o.state == e := by
  have hall : (vh.domain_list.all fun d => d.state == e) = true := by
    rw [List.all_eq_true]
    intro d hdm
    simpa using hd d hdm
  rw [markAllAs, if_neg (by simp [hv]), markDomains_eq, markOrigins_eq]
  rw [if_neg (by simp [hall])]

theorem markAllAs_snd_origins_stop (vh : VirtualHost) (e s : ItemState)
    (hv : vh.state = e) (hd : ¬ ∀ d ∈ vh.domain_list, d.state = e) :
    (markAllAs vh e s).2.origin_list = vh.origin_list := by
  have hall : (vh.domain_list.all fun d => d.state == e) = false := by
    cases hb : vh.domain_list.all fun d => d.state == e
    · rfl
    · exact absurd (fun d hdm => by simpa using List.all_eq_true.mp hb d hdm) hd
  rw [markAllAs, if_neg (by simp [hv]), markDomains_eq]
  rw [if_pos (by simp [hall])]

/-- C9: `VirtualHost::MarkAllAs(expected, new)` returns true iff the vhost's
own state and every domain's and origin's state equal `expected`; on success
everything is set to `new`; on failure everything checked before the failing
item — the vhost itself if its check passed, and every earlier domain/origin —
has already been set to `new`, so a false return does not leave the tree
unchanged. -/
theorem markAllAs_spec (vh : VirtualHost) (e s : ItemState) :
    ((markAllAs vh e s).1 = true ↔
      (vh.state = e ∧ (∀ d ∈ vh.domain_list, d.state = e)
        ∧ (∀ o ∈ vh.origin_list, o.state = e)))
    ∧ ((markAllAs vh e s).1 = true →
        ((markAllAs vh e s).2.state = s
          ∧ (∀ d ∈ (markAllAs vh e s).2.domain_list, d.state = s)
          ∧ (∀ o ∈ (markAllAs vh e s).2.origin_list, o.state = s)))
    ∧ (vh.state ≠ e → markAllAs vh e s = (false, vh))
    ∧ (vh.state = e →
        ((markAllAs vh e s).2.state = s
          ∧ (markAllAs vh e s).2.domain_list =
              (vh.domain_list.takeWhile fun d => d.state == e).map
                  (fun d => { d with state := s })
                ++ vh.domain_list.dropWhile (fun d => d.state == e)
          ∧ ((∀ d ∈ vh.domain_list, d.state = e) →
              (markAllAs vh e s).2.origin_list =
                (vh.origin_list.takeWhile fun o => o.state == e).map
                    (fun o => { o with state := s })
                  ++ vh.origin_list.dropWhile (fun o => o.state == e))
          ∧ ((¬ ∀ d ∈ vh.domain_list, d.state = e) →
              (markAllAs vh e s).2.origin_list = vh.origin_list))) := by
  have hiff : (markAllAs vh e s).1 = true ↔
      (vh.state = e ∧ (∀ d ∈ vh.domain_list, d.state = e)
        ∧ (∀ o ∈ vh.origin_list, o.state = e)) := by
    rw [markAllAs_fst]
    simp [List.all_eq_true, and_assoc]
  refine ⟨hiff, ?_, markAllAs_snd_mismatch vh e s, ?_⟩
  · intro htrue
    obtain ⟨hv, hd, ho⟩ := hiff.mp htrue
    have htw_d := takeWhile_of_all (fun d => d.state == e) vh.domain_list
      (fun d hdm => by simpa using hd d hdm)
    have htw_o := takeWhile_of_all (fun o => o.state == e) vh.origin_list
      (fun o hom => by simpa using ho o hom)
    refine ⟨markAllAs_snd_state vh e s hv, ?_, ?_⟩
    · rw [markAllAs_snd_domains vh e s hv, htw_d.1, htw_d.2, List.append_nil]
      intro d hdm
      rcases List.mem_map.mp hdm with ⟨d0, _, rfl⟩
      rfl
    · rw [markAllAs_snd_origins_pass vh e s hv hd, htw_o.1, htw_o.2, List.append_nil]
      intro o hom
      rcases List.mem_map.mp hom with ⟨o0, _, rfl⟩
      rfl
  · intro hv
    exact ⟨markAllAs_snd_state vh e s hv, markAllAs_snd_domains vh e s hv,
      markAllAs_snd_origins_pass vh e s hv, markAllAs_snd_origins_stop vh e s hv⟩

/-- Witness for C9: a concrete virtual host in state `NeedToCheck`, marked to
`Applied`. -/
theorem markAllAs_spec_witness :
    (markAllAs { host_info := { name := "h" }, name := "h", app_map := [], domain_list := [], origin_list := [], state := ItemState.NeedToCheck } ItemState.NeedToCheck ItemState.Applied).1 = true ↔
      ({ host_info := { name := "h" }, name := "h", app_map := [], domain_list := [], origin_list := [], state := ItemState.NeedToCheck } : VirtualHost).state = ItemState.NeedToCheck
        ∧ (∀ d ∈ ({ host_info := { name := "h" }, name := "h", app_map := [], domain_list := [], origin_list := [], state := ItemState.NeedToCheck } : VirtualHost).domain_list, d.state = ItemState.NeedToCheck)
        ∧ (∀ o ∈ ({ host_info := { name := "h" }, name := "h", app_map := [], domain_list := [], origin_list := [], state := ItemState.NeedToCheck } : VirtualHost).origin_list, o.state = ItemState.NeedToCheck) :=
  (markAllAs_spec { host_info := { name := "h" }, name := "h", app_map := [], domain_list := [], origin_list := [], state := ItemState.NeedToCheck } ItemState.NeedToCheck ItemState.Applied).1

theorem containsModule_iff (reg : ModuleRegistry) (m : Nat) :
    containsModule reg m = true ↔ m ∈ registryIds reg := by
  simp [containsModule, registryIds, List.any_eq_true]

theorem registerModule_mem (reg : ModuleRegistry) (ty : OrchestratorModuleType)
    (m x : Nat) :
    x ∈ registryIds (registerModule reg ty m).2 ↔ x ∈ registryIds reg ∨ x = m := by
  by_cases hc : containsModule reg m
  · rw [registerModule, if_pos hc]
    have hm := (containsModule_iff reg m).mp hc
    constructor
    · exact fun hx => Or.inl hx
    · rintro (hx | rfl)
      · exact hx
      · exact hm
  · rw [registerModule, if_neg hc]
    simp [registryIds]

theorem unregisterModule_mem (reg : ModuleRegistry) (m x : Nat) :
    x ∈ registryIds (unregisterModule reg m).2 ↔ x ∈ registryIds reg ∧ x ≠ m := by
  by_cases hc : containsModule reg m
  · rw [unregisterModule, if_pos hc]
    simp [registryIds, List.mem_filter]
    constructor
    · rintro ⟨e, ⟨he, hne⟩, rfl⟩; exact ⟨⟨e, he, rfl⟩, hne⟩
    · rintro ⟨⟨e, he, rfl⟩, hne⟩; exact ⟨e, ⟨he, hne⟩, rfl⟩
  · rw [unregisterModule, if_neg hc]
    have hm : m ∉ registryIds reg := fun hmem =>
      hc ((containsModule_iff reg m).mpr hmem)
    constructor
    · intro hx
      refine ⟨hx, ?_⟩
      rintro rfl
      exact hm hx
    · exact fun hx => hx.1

theorem registerModule_nodup (reg : ModuleRegistry) (ty : OrchestratorModuleType)
    (m : Nat) (h : (registryIds reg).Nodup) :
    (registryIds (registerModule reg ty m).2).Nodup := by
  by_cases hc : containsModule reg m
  · rw [registerModule, if_pos hc]; exact h
  · have hm : m ∉ registryIds reg := fun hmem =>
      hc ((containsModule_iff reg m).mpr hmem)
    rw [registerModule, if_neg hc]
    have : registryIds
        { module_list := reg.module_list ++ [{ type := ty, module := m }],
          module_map := fun t =>
            if t = ty then reg.module_map t ++ [m] else reg.module_map t } =
        registryIds reg ++ [m] := by
      simp [registryIds]
    rw [this, List.nodup_append]
    exact ⟨h, List.nodup_singleton m, by simpa using hm⟩

theorem unregisterModule_nodup (reg : ModuleRegistry) (m : Nat)
    (h : (registryIds reg).Nodup) :
    (registryIds (unregisterModule reg m).2).Nodup := by
  by_cases hc : containsModule reg m
  · rw [unregisterModule, if_pos hc]
    exact List.Nodup.sublist (List.Sublist.map _ (List.filter_sublist _)) h
  · rw [unregisterModule, if_neg hc]; exact h

theorem registry_fold (ops : List RegOp) :
    ∀ (reg : ModuleRegistry) (m : Nat) (b : Bool),
      (m ∈ registryIds reg ↔ b = true) → (registryIds reg).Nodup →
      ((registryIds (applyRegOps ops reg)).Nodup
        ∧ (m ∈ registryIds (applyRegOps ops reg) ↔ ops.foldl (netStep m) b = true)) := by
  induction ops with
  | nil => intro reg m b hmem hnd; exact ⟨hnd, by simpa using hmem⟩
  | cons op ops ih =>
    intro reg m b hmem hnd
    rw [show applyRegOps (op :: ops) reg = applyRegOps ops (applyRegOp reg op) from rfl,
      List.foldl_cons]
    apply ih
    · cases op with
      | registerOp ty m2 =>
        rw [show applyRegOp reg (RegOp.registerOp ty m2) = (registerModule reg ty m2).2
            from rfl]
        rw [registerModule_mem, hmem, netStep]
        simp only [Bool.or_eq_true, beq_iff_eq]
        exact or_congr Iff.rfl eq_comm
      | unregisterOp m2 =>
        rw [show applyRegOp reg (RegOp.unregisterOp m2) = (unregisterModule reg m2).2
            from rfl]
        rw [unregisterModule_mem, hmem, netStep]
        simp only [Bool.and_eq_true, Bool.not_eq_true', beq_eq_false_iff_ne]
        exact and_congr Iff.rfl ne_comm
    · cases op with
      | registerOp ty m2 => exact registerModule_nodup reg ty m2 hnd
      | unregisterOp m2 => exact unregisterModule_nodup reg m2 hnd

/-- C4: for any sequence of `RegisterModule`/`UnregisterModule` calls the
registry holds exactly the registered-minus-unregistered set and no module
appears twice; `RegisterModule` inserts an absent module and returns true,
returns false leaving the registry unchanged when the same reference is
already present (under any kind); `UnregisterModule` returns false leaving
the registry unchanged when the module is not found. -/
theorem module_registry_spec (ops : List RegOp) (m : Nat) :
    (registryIds (applyRegOps ops emptyRegistry)).Nodup
    ∧ (m ∈ registryIds (applyRegOps ops emptyRegistry) ↔ netRegistered m ops = true)
    ∧ (∀ reg ty, containsModule reg m = true → registerModule reg ty m = (false, reg))
    ∧ (∀ reg ty, containsModule reg m = false →
        (registerModule reg ty m).1 = true
        ∧ registryIds (registerModule reg ty m).2 = registryIds reg ++ [m])
    ∧ (∀ reg, containsModule reg m = false → unregisterModule reg m = (false, reg)) := by
  have hbase : (m ∈ registryIds emptyRegistry ↔ false = true) := by
    simp [registryIds, emptyRegistry]
  have hnd : (registryIds emptyRegistry).Nodup := by
    simp [registryIds, emptyRegistry]
  have hmain := registry_fold ops emptyRegistry m false hbase hnd
  refine ⟨hmain.1, hmain.2, ?_, ?_, ?_⟩
  · intro reg ty hc
    rw [registerModule, if_pos hc]
  · intro reg ty hc
    rw [registerModule, if_neg (by simp [hc])]
    exact ⟨rfl, by simp [registryIds]⟩
  · intro reg hc
    rw [unregisterModule, if_neg (by simp [hc])]

/-- Witness for C4 at a concrete call sequence (register 5 twice under two
kinds, unregister an absent 7). -/
theorem module_registry_spec_witness :
    (registryIds (applyRegOps
        [RegOp.registerOp OrchestratorModuleType.Provider 5,
         RegOp.registerOp OrchestratorModuleType.Publisher 5,
         RegOp.unregisterOp 7] emptyRegistry)).Nodup
    ∧ (5 ∈ registryIds (applyRegOps
        [RegOp.registerOp OrchestratorModuleType.Provider 5,
         RegOp.registerOp OrchestratorModuleType.Publisher 5,
         RegOp.unregisterOp 7] emptyRegistry) ↔
        netRegistered 5
          [RegOp.registerOp OrchestratorModuleType.Provider 5,
           RegOp.registerOp OrchestratorModuleType.Publisher 5,
           RegOp.unregisterOp 7] = true) :=
  ⟨(module_registry_spec
      [RegOp.registerOp OrchestratorModuleType.Provider 5,
       RegOp.registerOp OrchestratorModuleType.Publisher 5,
       RegOp.unregisterOp 7] 5).1,
    (module_registry_spec
      [RegOp.registerOp OrchestratorModuleType.Provider 5,
       RegOp.registerOp OrchestratorModuleType.Publisher 5,
       RegOp.unregisterOp 7] 5).2.1⟩

/-- Witness for C1: three modules, only module 1 creates successfully. -/
theorem create_rollback_witness :
    ([1, 2, 3].all (fun m => m == 1) = false)
    ∧ (createFanOut (fun m => m == 1) [] [1, 2, 3]).1 = Result.Failed
    ∧ holdersOf (createFanOut (fun m => m == 1) [] [1, 2, 3]).2 = [] :=
  ⟨by decide, (create_rollback (fun m => m == 1) [1, 2, 3] (by decide)).1,
    (create_rollback (fun m => m == 1) [1, 2, 3] (by decide)).2.2.2⟩

/-- C2: the `Origin` constructor stores in `url_list` exactly the URLs of the
configuration's Pass url_list, in order and unchanged (raw, without the scheme
prefix); the scheme is prepended only at dispatch time. -/
theorem origin_stores_raw_urls (cfg : OriginsOrigin) :
    (mkOrigin cfg).url_list = cfg.pass.url_list.map (fun item => item.url)
    ∧ (mkOrigin cfg).scheme = cfg.pass.scheme
    ∧ ∀ sn, dispatchUrls (mkOrigin cfg) sn =
        cfg.pass.url_list.map fun item =>
          cfg.pass.scheme ++ "://" ++ item.url ++ "/" ++ sn := by
  refine ⟨rfl, rfl, fun sn => ?_⟩
  simp [dispatchUrls, mkOrigin, List.map_map]

/-- C5: `ParseVHostAppName (ResolveApplicationName v a) = (v, a)` whenever
neither `v` nor `a` contains `'#'`; the canonical form is `<vhost>#<app>` and
parsing splits on the first `'#'`. -/
theorem resolve_parse_roundtrip (v a : List Char) (hv : '#' ∉ v) (ha : '#' ∉ a) :
    resolveApplicationName v a = v ++ '#' :: a
    ∧ parseVHostAppName (resolveApplicationName v a) = some (v, a) :=
  ⟨rfl, parse_resolve v a hv⟩

/-- Witness for C5 at `v = "h1"`, `a = "live"`. -/
theorem resolve_parse_roundtrip_witness :
    ('#' ∉ ['h', '1'] ∧ '#' ∉ ['l', 'i', 'v', 'e'])
    ∧ parseVHostAppName (resolveApplicationName ['h', '1'] ['l', 'i', 'v', 'e']) =
        some (['h', '1'], ['l', 'i', 'v', 'e']) :=
  ⟨⟨by decide, by decide⟩,
    (resolve_parse_roundtrip ['h', '1'] ['l', 'i', 'v', 'e'] (by decide) (by decide)).2⟩

/-- C7: the `RequestPullStream` overloads that omit the offset parameter
delegate to the corresponding full overload with offset 0, with identical
results/effects (the result type is abstract). -/
theorem requestPullStream_default_offset {α β : Type}
    (fullUrl : List Char → List Char → List Char → Int → α)
    (fullLoc : List Char → List Char → Int → β)
    (v s u : List Char) :
    requestPullStreamUrl fullUrl v s u = fullUrl v s u 0
    ∧ requestPullStreamLoc fullLoc v s = fullLoc v s 0 :=
  ⟨rfl, rfl⟩

/-- C8: the observer callbacks `OnSendVideoFrame`, `OnSendAudioFrame`,
`OnSendFrame` return `true` and leave the Application and all Orchestrator
state unchanged. -/
theorem observer_frames_ignored (app : Application) (orch : OrchestratorState)
    (stream : StreamInfo) (packet : MediaPacket) :
    Application.onSendVideoFrame app orch stream packet = (true, app, orch)
    ∧ Application.onSendAudioFrame app orch stream packet = (true, app, orch)
    ∧ Application.onSendFrame app orch stream packet = (true, app, orch) :=
  ⟨rfl, rfl, rfl⟩

/-- C10: every `Origin`, `Domain`, and `VirtualHost` is constructed with
state `New`; since `New ≠ Unknown`, `IsValid()` is true for every freshly
constructed `Origin` and `Domain`. -/
theorem fresh_items_state_new (cfg : OriginsOrigin) (n : List Char) (hi : HostInfo) :
    (mkOrigin cfg).state = ItemState.New
    ∧ (mkDomain n).state = ItemState.New
    ∧ (mkVirtualHost hi).state = ItemState.New
    ∧ ItemState.New ≠ ItemState.Unknown
    ∧ (mkOrigin cfg).IsValid = true
    ∧ (mkDomain n).IsValid = true := by
  have hd := (mkDomain_name_state n).2
  refine ⟨rfl, hd, rfl, by decide, rfl, ?_⟩
  simp [Domain.IsValid, hd]

end Orchestrator
